import Mathlib

/-!
Shallow embedding of the wavetable oscillator in `Oscil.h` (template class
`Oscil<NUM_TABLE_CELLS, UPDATE_RATE>`), together with theorems checking the
specification claims against it.

Modelling conventions:
* `unsigned long` is 32 bits on the target (AVR); its arithmetic is modelled
  on `Nat` with explicit reduction `% U32` wherever the C++ computation can
  wrap, and with `% U32` applied to parameters of `unsigned long` type at the
  call boundary (the implicit integral conversion).
* `unsigned int` is 16 bits on the target; parameters of that type are
  reduced `% U16` at the boundary.  The template parameters `NUM_TABLE_CELLS`
  and `UPDATE_RATE` are `unsigned int` values and appear here as plain `Nat`
  arguments `N` and `R` (side conditions such as `N < U16` are hypotheses of
  the theorems that need them).
* `long` (signed 32-bit) is modelled as `Int`; the mixed signed/unsigned
  expression in `phMod` is reduced with `Int.emod` by `2^32`, which agrees
  with the twos-complement wraparound of the compiled code.
* The wavetable (`prog_char *`, read via `pgm_read_byte_near`) is a `List Int`
  of the signed 8-bit sample values; an out-of-range read is given the
  default `0` (the safety claim shows in-range access under the documented
  preconditions).
-/

/-- The modulus 2^32 of `unsigned long` arithmetic on the target. -/
def U32 : Nat := 4294967296

/-- The modulus 2^16 of `unsigned int` arithmetic on the target. -/
def U16 : Nat := 65536

/-- Fractional bits of the phase accumulator (`F_BITS`). -/
def F_BITS : Nat := 16

/-- The state of an `Oscil` instance: the wavetable pointer and the two
`unsigned long` fields `phase_fractional` and `phase_increment_fractional`. -/
structure Oscil where
  table : List Int
  phase_fractional : Nat
  phase_increment_fractional : Nat
  deriving Repr, DecidableEq

namespace Oscil

/-- Index computed by `readTable`: `(phase_fractional >> F_BITS) & (NUM_TABLE_CELLS - 1)`. -/
def tableIndex (N : Nat) (phase : Nat) : Nat :=
  (phase >>> F_BITS) &&& (N - 1)

/-- Index computed by `phMod`:
`((phase_fractional + (phmod_proportion * NUM_TABLE_CELLS)) >> F_BITS) & (NUM_TABLE_CELLS - 1)`,
where the addition mixes `unsigned long` and `long` and therefore wraps
modulo 2^32. -/
def phModIndex (N : Nat) (phase : Nat) (phmod_proportion : Int) : Nat :=
  ((((phase : Int) + phmod_proportion * (N : Int)) % (2 ^ 32 : Int)).toNat >>> F_BITS)
    &&& (N - 1)

/-- Index computed by `atIndex`: `index & (NUM_TABLE_CELLS - 1)`. -/
def maskIndex (N : Nat) (index : Nat) : Nat :=
  index &&& (N - 1)

/-- Model of `incrementPhase()`: `phase_fractional += phase_increment_fractional`
(`unsigned long` addition, wraps modulo 2^32). -/
def incrementPhase (o : Oscil) : Oscil :=
  { o with phase_fractional :=
      (o.phase_fractional + o.phase_increment_fractional) % U32 }

/-- Model of `readTable()`: returns the table byte at `tableIndex`. -/
def readTable (N : Nat) (o : Oscil) : Int :=
  o.table.getD (tableIndex N o.phase_fractional) 0

/-- Model of `next()`: `incrementPhase(); return readTable();` — returns the sample
and the updated state. -/
def next (N : Nat) (o : Oscil) : Int × Oscil :=
  let o1 := incrementPhase o
  (readTable N o1, o1)

/-- Model of `phMod(long phmod_proportion)`: `incrementPhase();` then a one-shot
table read at the modulated index.  Returns the sample and updated state. -/
def phMod (N : Nat) (phmod_proportion : Int) (o : Oscil) : Int × Oscil :=
  let o1 := incrementPhase o
  (o1.table.getD (phModIndex N o1.phase_fractional phmod_proportion) 0, o1)

/-- Model of `atIndex(unsigned int index)`: pure table lookup at `index & (N - 1)`. -/
def atIndex (N : Nat) (o : Oscil) (index : Nat) : Int :=
  o.table.getD (maskIndex N (index % U16)) 0

/-- Model of `setFreq_n8(unsigned long frequency)`:
`phase_increment_fractional = ((frequency * NUM_TABLE_CELLS)/UPDATE_RATE) << (F_BITS-8)`,
all in `unsigned long` arithmetic. -/
def setFreq_n8 (N R : Nat) (frequency : Nat) (o : Oscil) : Oscil :=
  { o with phase_increment_fractional :=
      ((((frequency % U32) * N) % U32 / R) <<< (F_BITS - 8)) % U32 }

/-- Model of the `unsigned int` overload `setFreq(unsigned int frequency)`:
`phase_increment_fractional = (((unsigned long)frequency * NUM_TABLE_CELLS)/UPDATE_RATE) << F_BITS`. -/
def setFreq_uint (N R : Nat) (frequency : Nat) (o : Oscil) : Oscil :=
  { o with phase_increment_fractional :=
      ((((frequency % U16) * N) % U32 / R) <<< F_BITS) % U32 }

/-- Model of `phaseIncFromFreq(unsigned int frequency)`:
`return (((unsigned long)frequency * NUM_TABLE_CELLS)/UPDATE_RATE) << F_BITS;`. -/
def phaseIncFromFreq (N R : Nat) (frequency : Nat) : Nat :=
  ((((frequency % U16) * N) % U32 / R) <<< F_BITS) % U32

/-- Model of `setPhaseInc(unsigned long phaseinc_fractional)`:
`phase_increment_fractional = phaseinc_fractional;`. -/
def setPhaseInc (phaseinc_fractional : Nat) (o : Oscil) : Oscil :=
  { o with phase_increment_fractional := phaseinc_fractional % U32 }

/-- Iterates `next()` a given number of times, returning the final state. -/
def nextIter (N : Nat) : Nat → Oscil → Oscil
  | 0, o => o
  | k + 1, o => nextIter N k (next N o).2

/-- Iterates `next()` a given number of times, returning the samples produced. -/
def nextSamples (N : Nat) : Nat → Oscil → List Int
  | 0, _ => []
  | k + 1, o => (next N o).1 :: nextSamples N k (next N o).2

end Oscil

/-! ## Helper lemmas -/

/-- With modulation `0` the modulated read index coincides with the plain
read index, for any in-range phase value. -/
theorem phModIndex_zero (N p : Nat) (hp : p < U32) :
    Oscil.phModIndex N p 0 = Oscil.tableIndex N p := by
  unfold Oscil.phModIndex Oscil.tableIndex
  have h0 : ((p : Int) + 0 * (N : Int)) = (p : Int) := by ring
  have h1 : (p : Int) % (2 ^ 32 : Int) = (p : Int) := by
    refine Int.emod_eq_of_lt (by positivity) ?_
    have : (U32 : Int) = (2 ^ 32 : Int) := by norm_num [U32]
    omega
  rw [h0, h1]
  simp

/-- Reading with `List.getD` at an in-range index returns an element of the list. -/
theorem getD_mem_of_lt {l : List Int} {i : Nat} (h : i < l.length) :
    l.getD i 0 ∈ l := by
  rw [List.getD_eq_getElem?_getD, List.getElem?_eq_getElem h]
  exact List.getElem_mem h

/-- Masking with `N - 1` lands below `N` whenever `N` is a power of two. -/
theorem and_mask_lt (N k x : Nat) (hN : N = 2 ^ k) : x &&& (N - 1) < N := by
  subst hN
  exact Nat.lt_of_le_of_lt Nat.and_le_right
    (Nat.sub_lt (Nat.pos_pow_of_pos k (by norm_num)) (by norm_num))

/-- Phase after `k` iterated `next()` calls: the accumulator advances by
`k * phase_increment_fractional`, reduced modulo 2^32. -/
theorem nextIter_phase (N k : Nat) (o : Oscil) (hp : o.phase_fractional < U32) :
    (Oscil.nextIter N k o).phase_fractional =
      (o.phase_fractional + k * o.phase_increment_fractional) % U32 := by
  induction k generalizing o with
  | zero => simpa using (Nat.mod_eq_of_lt hp).symm
  | succ k ih =>
    have hp1 : ((o.phase_fractional + o.phase_increment_fractional) % U32) < U32 :=
      Nat.mod_lt _ (by norm_num [U32])
    have step : (Oscil.nextIter N (k + 1) o) =
        Oscil.nextIter N k (Oscil.incrementPhase o) := rfl
    rw [step, ih _ hp1]
    show ((o.phase_fractional + o.phase_increment_fractional) % U32 +
        k * o.phase_increment_fractional) % U32 = _
    rw [Nat.mod_add_mod]
    congr 1
    ring

/-! ## Claim theorems -/

/-- C1: `next()` first advances the stored phase accumulator by the current
phase increment (unsigned 32-bit addition with wraparound), leaves the
increment and table untouched, and returns the table entry at index
`(phase >> 16) & (N-1)` where `phase` is the post-advance value. -/
theorem next_advances_then_reads (N : Nat) (o : Oscil) :
    (Oscil.next N o).2.phase_fractional =
        (o.phase_fractional + o.phase_increment_fractional) % U32 ∧
    (Oscil.next N o).2.phase_increment_fractional = o.phase_increment_fractional ∧
    (Oscil.next N o).2.table = o.table ∧
    (Oscil.next N o).1 =
      o.table.getD
        ((((o.phase_fractional + o.phase_increment_fractional) % U32) >>> 16) &&&
          (N - 1)) 0 :=
  ⟨rfl, rfl, rfl, rfl⟩

/-- The concrete oscillator of the specification scenario with `N = 8`: table
`[0,1,2,3,4,5,6,7]`, `phase = 0`, `increment = 1 << 16`. -/
def oscScenario8 : Oscil :=
  { table := [0, 1, 2, 3, 4, 5, 6, 7]
    phase_fractional := 0
    phase_increment_fractional := 65536 }

/-- C2 (counterexample): in the `N = 8` scenario the first `next()` call
returns table entry 1, not table entry 0, because the phase is advanced
before the read. -/
theorem scenario8_first_call_not_zero :
    (Oscil.next 8 oscScenario8).1 = 1 ∧ (Oscil.next 8 oscScenario8).1 ≠ 0 := by
  decide

/-- C2 (amended): in the `N = 8` scenario successive `next()` calls return
`1,2,3,4,5,6,7,0,1,2,...` — each call first advances the phase by one table
step and then reads, so the first call returns table entry 1. -/
theorem scenario8_samples :
    Oscil.nextSamples 8 10 oscScenario8 = [1, 2, 3, 4, 5, 6, 7, 0, 1, 2] := by
  decide

/-- C3: `phMod(m)` advances the stored phase exactly as `next()` does (same
resulting state, modulation never folded into the stored phase), returns the
table entry at `((phase + m * N) >> 16) & (N-1)` computed from the
post-advance phase, and `phMod(0)` returns the same sample and leaves the
same state as `next()` from the same starting state. -/
theorem phMod_spec (N : Nat) (m : Int) (o : Oscil) :
    (Oscil.phMod N m o).2 = (Oscil.next N o).2 ∧
    (Oscil.phMod N m o).1 =
      o.table.getD
        (Oscil.phModIndex N
          ((o.phase_fractional + o.phase_increment_fractional) % U32) m) 0 ∧
    Oscil.phMod N 0 o = Oscil.next N o := by
  refine ⟨rfl, rfl, ?_⟩
  have hp : (Oscil.incrementPhase o).phase_fractional < U32 :=
    Nat.mod_lt _ (by norm_num [U32])
  simp only [Oscil.phMod, Oscil.next, Oscil.readTable]
  rw [phModIndex_zero N _ hp]

/-- C4: `atIndex(i)` is a pure lookup at `i & (N-1)` — it depends only on
the table, not on any other oscillator state — and for every power-of-two
table length `N` (of `unsigned int` width) and every index `i`, with `i + N`
computed in the 16-bit unsigned width of the argument,
`atIndex(i) == atIndex(i + N)`. -/
theorem atIndex_pure_periodic (N k : Nat) (hN : N = 2 ^ k) (hk : k ≤ 16)
    (o o2 : Oscil) (ht : o.table = o2.table) (i : Nat) (hi : i < U16) :
    Oscil.atIndex N o ((i + N) % U16) = Oscil.atIndex N o i ∧
    Oscil.atIndex N o i = Oscil.atIndex N o2 i := by
  constructor
  · unfold Oscil.atIndex Oscil.maskIndex
    congr 1
    rw [Nat.mod_mod_of_dvd _ dvd_rfl, Nat.mod_eq_of_lt hi]
    subst hN
    rw [Nat.and_pow_two_sub_one_eq_mod, Nat.and_pow_two_sub_one_eq_mod]
    have hd : (2 : Nat) ^ k ∣ U16 := by
      have h16 : (U16 : Nat) = 2 ^ 16 := by norm_num [U16]
      rw [h16]
      exact pow_dvd_pow 2 hk
    rw [Nat.mod_mod_of_dvd _ hd, Nat.add_mod_right]
  · unfold Oscil.atIndex
    rw [ht]

/-- A concrete oscillator instance used to instantiate hypotheses of the
claim theorems at explicit inputs. -/
def oscA : Oscil :=
  { table := [3, -1, 7, 0, -8, 2, 5, -4]
    phase_fractional := 5
    phase_increment_fractional := 9 }

/-- Witness for `atIndex_pure_periodic` at `N = 8`, `i = 5`. -/
theorem atIndex_pure_periodic_witness :
    ((8 : Nat) = 2 ^ 3 ∧ (3 : Nat) ≤ 16 ∧ oscA.table = oscA.table ∧ (5 : Nat) < U16) ∧
    (Oscil.atIndex 8 oscA ((5 + 8) % U16) = Oscil.atIndex 8 oscA 5 ∧
     Oscil.atIndex 8 oscA 5 = Oscil.atIndex 8 oscA 5) :=
  ⟨⟨by decide, by decide, rfl, by decide⟩,
   atIndex_pure_periodic 8 3 (by decide) (by decide) oscA oscA rfl 5 (by decide)⟩

/-- C5: `setFreq_n8(freq)` sets the phase increment to
`((freq * N) / R) << 8`, where `freq * N` is computed in unsigned 32-bit
arithmetic (wrapping modulo 2^32 with no runtime check) and the division
truncates; phase and table are untouched. -/
theorem setFreq_n8_spec (N R f : Nat) (hf : f < U32) (o : Oscil) :
    (Oscil.setFreq_n8 N R f o).phase_increment_fractional =
      ((f * N) % U32 / R * 2 ^ 8) % U32 ∧
    (Oscil.setFreq_n8 N R f o).phase_fractional = o.phase_fractional ∧
    (Oscil.setFreq_n8 N R f o).table = o.table := by
  refine ⟨?_, rfl, rfl⟩
  simp only [Oscil.setFreq_n8, Nat.mod_eq_of_lt hf, Nat.shiftLeft_eq]
  norm_num [F_BITS]

/-- Witness for `setFreq_n8_spec` at `freq = 384` (1.5 Hz in Q24n8),
`N = 8192`, `R = 16384`. -/
theorem setFreq_n8_spec_witness :
    (384 : Nat) < U32 ∧
    (Oscil.setFreq_n8 8192 16384 384 oscA).phase_increment_fractional =
      ((384 * 8192) % U32 / 16384 * 2 ^ 8) % U32 :=
  ⟨by decide, (setFreq_n8_spec 8192 16384 384 (by decide) oscA).1⟩

/-- C6: computing `phaseIncFromFreq(f)` and passing the result to
`setPhaseInc` produces exactly the state produced by `setFreq(f)` (the
`unsigned int` overload), and hence identical `next()` behaviour from the
same phase. -/
theorem phaseIncFromFreq_then_setPhaseInc_eq_setFreq (N R f : Nat) (o : Oscil) :
    Oscil.setPhaseInc (Oscil.phaseIncFromFreq N R f) o = Oscil.setFreq_uint N R f o ∧
    Oscil.next N (Oscil.setPhaseInc (Oscil.phaseIncFromFreq N R f) o) =
      Oscil.next N (Oscil.setFreq_uint N R f o) := by
  have h : Oscil.setPhaseInc (Oscil.phaseIncFromFreq N R f) o =
      Oscil.setFreq_uint N R f o := by
    unfold Oscil.setPhaseInc Oscil.phaseIncFromFreq Oscil.setFreq_uint
    rw [Nat.mod_mod_of_dvd _ dvd_rfl]
  exact ⟨h, by rw [h]⟩

/-- C9: every table access of `next()`, `phMod()` and `atIndex()` uses an
index masked with `N - 1`, hence in `[0, N-1]` for all phases and
arguments when `N` is a power of two; with a table of length `N` each
returned sample is an element of the table (no out-of-bounds read), and all
three operations are total functions. -/
theorem table_access_safe (N k : Nat) (hN : N = 2 ^ k) (o : Oscil)
    (hlen : o.table.length = N) (m : Int) (p i : Nat) :
    Oscil.tableIndex N p < N ∧ Oscil.phModIndex N p m < N ∧
    Oscil.maskIndex N i < N ∧
    (Oscil.next N o).1 ∈ o.table ∧ (Oscil.phMod N m o).1 ∈ o.table ∧
    Oscil.atIndex N o i ∈ o.table := by
  refine ⟨?_, ?_, ?_, ?_, ?_, ?_⟩
  · exact and_mask_lt N k _ hN
  · exact and_mask_lt N k _ hN
  · exact and_mask_lt N k _ hN
  · have h : (Oscil.next N o).1 = o.table.getD
        (Oscil.tableIndex N (Oscil.incrementPhase o).phase_fractional) 0 := rfl
    rw [h]
    exact getD_mem_of_lt (by rw [hlen]; exact and_mask_lt N k _ hN)
  · have h : (Oscil.phMod N m o).1 = o.table.getD
        (Oscil.phModIndex N (Oscil.incrementPhase o).phase_fractional m) 0 := rfl
    rw [h]
    exact getD_mem_of_lt (by rw [hlen]; exact and_mask_lt N k _ hN)
  · have h : Oscil.atIndex N o i = o.table.getD (Oscil.maskIndex N (i % U16)) 0 := rfl
    rw [h]
    exact getD_mem_of_lt (by rw [hlen]; exact and_mask_lt N k _ hN)

/-- C7: for an integer frequency `f` in the safe (non-overflowing) range,
`setFreq_n8(f << 8)` and the `unsigned int` overload `setFreq(f)` produce
phase increments that agree up to the truncation loss of the coarser
(integer) division: the `n8` value is at least the integer-overload value
and exceeds it by less than `2^16` (one integer-division step). -/
theorem setFreq_overloads_agree (N R f : Nat) (hR : 0 < R) (hf16 : f < U16)
    (h1 : f * 2 ^ 8 * N < U32) (h2 : f * 2 ^ 8 * N / R * 2 ^ 8 < U32) (o : Oscil) :
    (Oscil.setFreq_uint N R f o).phase_increment_fractional ≤
      (Oscil.setFreq_n8 N R (f <<< 8) o).phase_increment_fractional ∧
    (Oscil.setFreq_n8 N R (f <<< 8) o).phase_increment_fractional -
      (Oscil.setFreq_uint N R f o).phase_increment_fractional < 2 ^ 16 := by
  have hcomm : f * 2 ^ 8 * N = 2 ^ 8 * (f * N) := by ring
  -- the raw (unreduced) increment of the integer overload
  have hble : f * N / R * 2 ^ 16 ≤ f * 2 ^ 8 * N / R * 2 ^ 8 := by
    have hle : 2 ^ 8 * (f * N / R) ≤ 2 ^ 8 * (f * N) / R := by
      rw [Nat.le_div_iff_mul_le hR]
      calc 2 ^ 8 * (f * N / R) * R = 2 ^ 8 * (f * N / R * R) := by ring
        _ ≤ 2 ^ 8 * (f * N) := by
            exact Nat.mul_le_mul_left _ (Nat.div_mul_le_self _ _)
    calc f * N / R * 2 ^ 16 = 2 ^ 8 * (f * N / R) * 2 ^ 8 := by ring
      _ ≤ 2 ^ 8 * (f * N) / R * 2 ^ 8 := Nat.mul_le_mul_right _ hle
      _ = f * 2 ^ 8 * N / R * 2 ^ 8 := by rw [hcomm]
  have hgap : f * 2 ^ 8 * N / R * 2 ^ 8 < f * N / R * 2 ^ 16 + 2 ^ 16 := by
    have hx : f * N < (f * N / R + 1) * R := by
      have h4 : f * N % R < R := Nat.mod_lt _ hR
      calc f * N = R * (f * N / R) + f * N % R := (Nat.div_add_mod _ _).symm
        _ < R * (f * N / R) + R := Nat.add_lt_add_left h4 _
        _ = (f * N / R + 1) * R := by ring
    have hlt : 2 ^ 8 * (f * N) / R < 2 ^ 8 * (f * N / R + 1) := by
      rw [Nat.div_lt_iff_lt_mul hR]
      calc 2 ^ 8 * (f * N) < 2 ^ 8 * ((f * N / R + 1) * R) :=
            (Nat.mul_lt_mul_left (by norm_num)).mpr hx
        _ = 2 ^ 8 * (f * N / R + 1) * R := by ring
    calc f * 2 ^ 8 * N / R * 2 ^ 8 = 2 ^ 8 * (f * N) / R * 2 ^ 8 := by rw [hcomm]
      _ < 2 ^ 8 * (f * N / R + 1) * 2 ^ 8 := (Nat.mul_lt_mul_right (by norm_num)).mpr hlt
      _ = f * N / R * 2 ^ 16 + 2 ^ 16 := by ring
  -- evaluate the two setter bodies under the no-overflow hypotheses
  have hf8 : f * 2 ^ 8 < U32 := by
    calc f * 2 ^ 8 < U16 * 2 ^ 8 := (Nat.mul_lt_mul_right (by norm_num)).mpr hf16
      _ < U32 := by norm_num [U16, U32]
  have hfN : f * N < U32 := by
    have hle2 : f * N ≤ f * 2 ^ 8 * N := by
      rw [hcomm]
      exact Nat.le_mul_of_pos_left _ (by norm_num)
    exact lt_of_le_of_lt hle2 h1
  have hbU : f * N / R * 2 ^ 16 < U32 := Nat.lt_of_le_of_lt hble h2
  have ha : (Oscil.setFreq_n8 N R (f <<< 8) o).phase_increment_fractional =
      f * 2 ^ 8 * N / R * 2 ^ 8 := by
    simp only [Oscil.setFreq_n8, Nat.shiftLeft_eq]
    rw [Nat.mod_eq_of_lt hf8, Nat.mod_eq_of_lt h1]
    show f * 2 ^ 8 * N / R * 2 ^ (F_BITS - 8) % U32 = _
    norm_num [F_BITS]
    exact Nat.mod_eq_of_lt h2
  have hb : (Oscil.setFreq_uint N R f o).phase_increment_fractional =
      f * N / R * 2 ^ 16 := by
    simp only [Oscil.setFreq_uint, Nat.shiftLeft_eq]
    rw [Nat.mod_eq_of_lt hf16, Nat.mod_eq_of_lt hfN]
    show f * N / R * 2 ^ F_BITS % U32 = _
    norm_num [F_BITS]
    exact Nat.mod_eq_of_lt hbU
  rw [ha, hb]
  exact ⟨hble, (tsub_lt_iff_left hble).mpr hgap⟩

/-- Witness for `setFreq_overloads_agree` at `f = 440`, `N = 256`,
`R = 16384`. -/
theorem setFreq_overloads_agree_witness :
    ((0 : Nat) < 16384 ∧ (440 : Nat) < U16 ∧ 440 * 2 ^ 8 * 256 < U32 ∧
      440 * 2 ^ 8 * 256 / 16384 * 2 ^ 8 < U32) ∧
    ((Oscil.setFreq_uint 256 16384 440 oscA).phase_increment_fractional ≤
      (Oscil.setFreq_n8 256 16384 (440 <<< 8) oscA).phase_increment_fractional ∧
     (Oscil.setFreq_n8 256 16384 (440 <<< 8) oscA).phase_increment_fractional -
      (Oscil.setFreq_uint 256 16384 440 oscA).phase_increment_fractional < 2 ^ 16) :=
  ⟨⟨by decide, by decide, by decide, by decide⟩,
   setFreq_overloads_agree 256 16384 440 (by decide) (by decide) (by decide)
     (by decide) oscA⟩

/-- C8: after `k` calls to `next()` the phase accumulator has advanced by
exactly `k * phaseIncrement` modulo 2^32, and with an integer frequency `f`
such that `f` divides `R` and `R` divides `f * N` (so the increment
`(f*N/R) << 16` is exact), calling `next()` exactly `R / f` times after
`setFreq(f)` advances the phase by exactly `N << 16` — one full table
cycle — modulo wraparound. -/
theorem phase_accumulates_and_full_cycle (N R f k : Nat) (o : Oscil)
    (hp : o.phase_fractional < U32) (hR : 0 < R) (hf : 0 < f) (hf16 : f < U16)
    (hfR : f ∣ R) (hRfN : R ∣ f * N) (hov : f * N < U32) :
    (Oscil.nextIter N k o).phase_fractional =
      (o.phase_fractional + k * o.phase_increment_fractional) % U32 ∧
    (Oscil.nextIter N (R / f) (Oscil.setFreq_uint N R f o)).phase_fractional =
      (o.phase_fractional + (N <<< 16)) % U32 := by
  refine ⟨nextIter_phase N k o hp, ?_⟩
  have hinc : (Oscil.setFreq_uint N R f o).phase_increment_fractional =
      f * N / R * 2 ^ 16 % U32 := by
    simp only [Oscil.setFreq_uint, Nat.shiftLeft_eq]
    rw [Nat.mod_eq_of_lt hf16, Nat.mod_eq_of_lt hov]
    show f * N / R * 2 ^ F_BITS % U32 = _
    norm_num [F_BITS]
  have hphase : (Oscil.setFreq_uint N R f o).phase_fractional =
      o.phase_fractional := rfl
  rw [nextIter_phase N _ _ (by rw [hphase]; exact hp), hinc, hphase]
  have habs : (o.phase_fractional + R / f * (f * N / R * 2 ^ 16 % U32)) % U32 =
      (o.phase_fractional + R / f * (f * N / R * 2 ^ 16)) % U32 :=
    Nat.ModEq.add_left _ (Nat.ModEq.mul_left _ (Nat.mod_modEq _ _))
  rw [habs]
  obtain ⟨q, hq⟩ := hfR
  obtain ⟨s, hs⟩ := hRfN
  have hRf : R / f = q := by rw [hq]; exact Nat.mul_div_cancel_left q hf
  have hfNR : f * N / R = s := by rw [hs]; exact Nat.mul_div_cancel_left s hR
  have hqs : q * s = N := by
    have hqs0 : f * N = f * (q * s) := by rw [hs, hq]; ring
    exact (Nat.eq_of_mul_eq_mul_left hf hqs0).symm
  rw [hRf, hfNR, Nat.shiftLeft_eq]
  have hfin : q * (s * 2 ^ 16) = N * 2 ^ 16 := by rw [← hqs]; ring
  rw [hfin]

/-- Witness for `phase_accumulates_and_full_cycle` at the concrete
scenario of the specification with `N = 256`, `R = 16384`, `f = 256`, with `k = 3`. -/
theorem phase_accumulates_and_full_cycle_witness :
    (oscA.phase_fractional < U32 ∧ (0 : Nat) < 16384 ∧ (0 : Nat) < 256 ∧
      (256 : Nat) < U16 ∧ (256 : Nat) ∣ 16384 ∧ (16384 : Nat) ∣ 256 * 256 ∧
      256 * 256 < U32) ∧
    ((Oscil.nextIter 256 3 oscA).phase_fractional =
      (oscA.phase_fractional + 3 * oscA.phase_increment_fractional) % U32 ∧
     (Oscil.nextIter 256 (16384 / 256)
        (Oscil.setFreq_uint 256 16384 256 oscA)).phase_fractional =
      (oscA.phase_fractional + (256 <<< 16)) % U32) :=
  ⟨⟨by decide, by decide, by decide, by decide, by decide, by decide, by decide⟩,
   phase_accumulates_and_full_cycle 256 16384 256 3 oscA (by decide) (by decide)
     (by decide) (by decide) (by decide) (by decide) (by decide)⟩

/-- Witness for `table_access_safe` at `N = 8` with an 8-entry table,
modulation `-3`, phase `123456`, index `77`. -/
theorem table_access_safe_witness :
    ((8 : Nat) = 2 ^ 3 ∧ oscA.table.length = 8) ∧
    (Oscil.tableIndex 8 123456 < 8 ∧ Oscil.phModIndex 8 123456 (-3) < 8 ∧
     Oscil.maskIndex 8 77 < 8 ∧
     (Oscil.next 8 oscA).1 ∈ oscA.table ∧ (Oscil.phMod 8 (-3) oscA).1 ∈ oscA.table ∧
     Oscil.atIndex 8 oscA 77 ∈ oscA.table) :=
  ⟨⟨by decide, by decide⟩,
   table_access_safe 8 3 (by decide) oscA (by decide) (-3) 123456 77⟩
